import Mathlib

/-!
Verification of `pynalyze` (src/pynalyze.py), a single-file analyzer that
flags unused top-level functions and unused imports.

The development shallowly embeds the analyzer's core:
* the AST fragment the visitor dispatches on (`Node`, `NodeList`),
* the visitor state (`CodeVisitor`, mirroring the Python class's fields),
* the traversal (`visit` / `visitList`, mirroring `ast.NodeVisitor.visit`
  plus the `visit_*` methods and `generic_visit`),
* the resolvers `get_unused_imports` / `get_unused_functions`,
* the CLI driver `analyze` (exit status and finding lists; printing is not
  modelled),
* a fuelled, fallible variant of the traversal (`visitF` / `visitListF`)
  that models the runtime's recursion limit, used to examine the behaviour
  of `visit_ClassDef` on a failing descent.

Python `dict`s are modelled as association lists with key-unique upsert
(`updA`) preserving the position of an existing key, matching CPython's
insertion-order semantics; Python `set`s are modelled as lists queried only
through membership; `sorted(..., key=lambda x: x[1].lineno)` is modelled by
the stable sort `sortByLine`.
-/

/-- `ImportInfo` from the source: a NamedTuple with fields
`module`, `lineno`, `is_from`. -/
structure ImportInfo where
  module : String
  lineno : Nat
  is_from : Bool
deriving Repr, DecidableEq

/-- `FunctionInfo` from the source: a NamedTuple with fields `name`, `lineno`. -/
structure FunctionInfo where
  name : String
  lineno : Nat
deriving Repr, DecidableEq

/-- An `ast.alias` entry of an import statement: the original `name` and the
optional `asname`. -/
structure ImportAlias where
  name : String
  asname : Option String
deriving Repr, DecidableEq

/-- The expression context of an `ast.Name` node (`Load`, `Store`, `Del`).
The analyzer's `visit_Name` ignores it; it is carried so that claims about
read versus write occurrences can be stated. -/
inductive NameCtx where
  | load
  | store
  | del
deriving Repr, DecidableEq

mutual
/-- The AST fragment the visitor dispatches on.  Node kinds the visitor has
no `visit_*` method for (such as `Assign`, `Expr`, `BinOp`, or
`AsyncFunctionDef`) are represented by `other` holding their child nodes,
exactly matching `generic_visit`'s behaviour of descending into children.
`funcDef` carries the child groups in `generic_visit`'s field order:
`args`, `body`, `decorator_list`.  `classDef` carries all its visited
children (bases, keywords, body, decorator list) as one list, since
`visit_ClassDef` descends into all of them inside the class context. -/
inductive Node where
  | imp : List ImportAlias → Nat → Node
  | impFrom : Option String → List ImportAlias → Nat → Node
  | name : String → NameCtx → Node
  | funcDef : String → NodeList → NodeList → NodeList → Nat → Node
  | classDef : String → NodeList → Node
  | call : Node → NodeList → Node
  | attr : Node → String → Node
  | other : NodeList → Node
deriving Repr, DecidableEq

/-- A list of AST nodes (a mutual companion to `Node`). -/
inductive NodeList where
  | nil : NodeList
  | cons : Node → NodeList → NodeList
deriving Repr, DecidableEq
end

/-- Whether a `NodeList` is empty; models Python truthiness of
`node.decorator_list`. -/
def NodeList.isNil : NodeList → Bool
  | .nil => true
  | .cons _ _ => false

/-- The state of the `CodeVisitor` class: its `__init__` fields.
Dictionaries are association lists (key-unique, insertion ordered), sets are
lists queried by membership. -/
structure CodeVisitor where
  defined_funcs : List (String × FunctionInfo)
  called_funcs : List String
  decorated_funcs : List String
  imports : List (String × ImportInfo)
  import_froms : List (String × ImportInfo)
  used_names : List String
  in_class : Bool
  current_class : Option String
deriving Repr, DecidableEq

/-- `CodeVisitor.__init__`: everything empty, `in_class = False`,
`current_class = None`. -/
def initVisitor : CodeVisitor :=
  { defined_funcs := [], called_funcs := [], decorated_funcs := []
    imports := [], import_froms := [], used_names := []
    in_class := false, current_class := none }

/-- Python-dict assignment `m[k] = v` on an association list: if `k` is
present its value is replaced in place (position kept), otherwise the pair
is appended, matching CPython dict insertion-order semantics.  (All dicts
the analyzer builds are key-unique, so replacing the first occurrence is
exact.) -/
def updA {α : Type} : List (String × α) → String → α → List (String × α)
  | [], k, v => [(k, v)]
  | p :: m, k, v => if p.1 == k then (k, v) :: m else p :: updA m k v

/-- Python-dict lookup `m[k]` (as an option). -/
def lookupA {α : Type} (m : List (String × α)) (k : String) : Option α :=
  (m.find? (fun p => p.1 == k)).map (fun p => p.2)

/-- Python-dict membership `k in m`. -/
def keyMem {α : Type} (m : List (String × α)) (k : String) : Bool :=
  m.any (fun p => p.1 == k)

/-- `visit_Import`: for each alias, record `alias.asname or alias.name` in
`imports` with the statement's line and `is_from=False`.  (`generic_visit`
then descends into the alias children, which contain no further nodes.) -/
def visit_Import (names : List ImportAlias) (lineno : Nat) (s : CodeVisitor) : CodeVisitor :=
  { s with imports :=
      names.foldl (fun m a =>
        updA m (a.asname.getD a.name) ⟨a.name, lineno, false⟩) s.imports }

/-- `visit_ImportFrom`: `module = node.module or ''`; for each alias whose
bound name is not `*`, record it in `import_froms` with `is_from=True`. -/
def visit_ImportFrom (module : Option String) (names : List ImportAlias) (lineno : Nat)
    (s : CodeVisitor) : CodeVisitor :=
  { s with import_froms :=
      names.foldl (fun m a =>
        let n := a.asname.getD a.name
        if n = "*" then m
        else updA m n ⟨module.getD "", lineno, true⟩) s.import_froms }

/-- The state update of `visit_FunctionDef` before its descent: inside a
class body nothing is recorded; otherwise a decorated function's name joins
`decorated_funcs`, and an undecorated one gets a `FunctionInfo` record.
(All three branches of `visit_FunctionDef` then perform the same
`generic_visit` descent, done by the caller.) -/
def funcDefUpd (nm : String) (decs : NodeList) (lineno : Nat) (s : CodeVisitor) :
    CodeVisitor :=
  if s.in_class then s
  else if decs.isNil then
    { s with defined_funcs := updA s.defined_funcs nm ⟨nm, lineno⟩ }
  else
    { s with decorated_funcs := nm :: s.decorated_funcs }

/-- The state update of `visit_Call` before its descent: a bare-name callee
joins `called_funcs`; an attribute callee on the bare name `self` puts the
attribute name into `called_funcs`. -/
def callTarget (f : Node) (s : CodeVisitor) : CodeVisitor :=
  match f with
  | .name id _ => { s with called_funcs := id :: s.called_funcs }
  | .attr (.name vid _) a =>
      if vid = "self" then { s with called_funcs := a :: s.called_funcs } else s
  | _ => s

/-- The state update of `visit_Attribute` before its descent: when the
object is a bare name, that identifier joins `used_names`, and if it is
exactly `self` the attribute name joins `called_funcs` first. -/
def attrBase (v : Node) (a : String) (s : CodeVisitor) : CodeVisitor :=
  match v with
  | .name vid _ =>
      let s2 := if vid = "self" then { s with called_funcs := a :: s.called_funcs } else s
      { s2 with used_names := vid :: s2.used_names }
  | _ => s

mutual
/-- `ast.NodeVisitor.visit` dispatch over the analyzer's `visit_*` methods.
Each case mirrors one method of `CodeVisitor` (or `generic_visit` for
`other`), including the descent performed by `generic_visit`; the
pre-descent state updates of `visit_FunctionDef`, `visit_Call` and
`visit_Attribute` are the named helpers above. -/
def visit : Node → CodeVisitor → CodeVisitor
  | .imp names lineno, s => visit_Import names lineno s
  | .impFrom module names lineno, s => visit_ImportFrom module names lineno s
  | .name id _, s =>
      { s with used_names := id :: s.used_names }
  | .funcDef nm args body decs lineno, s =>
      visitList decs (visitList body (visitList args (funcDefUpd nm decs lineno s)))
  | .classDef nm body, s =>
      let s1 := visitList body { s with in_class := true, current_class := some nm }
      { s1 with in_class := s.in_class, current_class := s.current_class }
  | .call f args, s =>
      visitList args (visit f (callTarget f s))
  | .attr v a, s =>
      visit v (attrBase v a s)
  | .other cs, s => visitList cs s

/-- `generic_visit`'s iteration over a list of child nodes. -/
def visitList : NodeList → CodeVisitor → CodeVisitor
  | .nil, s => s
  | .cons n l, s => visitList l (visit n s)
end

/-- Visiting a parsed module: `visitor = CodeVisitor(); visitor.visit(tree)`
(the `Module` root has no `visit_*` method, so `generic_visit` descends into
its statement list). -/
def runVisitor (tree : NodeList) : CodeVisitor :=
  visitList tree initVisitor

/-- `CodeVisitor.get_unused_imports`: entries of `imports` then
`import_froms` whose key is not in `used_names`, collected into a fresh
dict. -/
def get_unused_imports (v : CodeVisitor) : List (String × ImportInfo) :=
  let unused := v.imports.foldl
    (fun u p => if p.1 ∈ v.used_names then u else updA u p.1 p.2) []
  v.import_froms.foldl
    (fun u p => if p.1 ∈ v.used_names then u else updA u p.1 p.2) unused

/-- `CodeVisitor.get_unused_functions`: entries of `defined_funcs` whose key
is neither in `called_funcs` nor in `decorated_funcs`. -/
def get_unused_functions (v : CodeVisitor) : List (String × FunctionInfo) :=
  v.defined_funcs.foldl
    (fun u p =>
      if p.1 ∈ v.called_funcs ∨ p.1 ∈ v.decorated_funcs then u else updA u p.1 p.2) []

/-- One insertion step of a stable sort: `x` is placed after every element
whose line is `≤` its own. -/
def insertStable {α : Type} (line : α → Nat) (x : α) : List α → List α
  | [] => [x]
  | y :: ys => if line y ≤ line x then y :: insertStable line x ys else x :: y :: ys

/-- Python's stable `sorted(entries, key=lambda x: x[1].lineno)` (the key
function is abstracted to `line`): a stable insertion sort, ascending. -/
def sortByLine {α : Type} (line : α → Nat) (l : List α) : List α :=
  l.foldl (fun acc x => insertStable line x acc) []

/-- The two boundary error kinds of `analyze` (§7): `FileNotFoundError` and
any other exception, in particular the `SyntaxError` from `ast.parse`. -/
inductive AnalyzeErr where
  | fileNotFound
  | otherErr
deriving Repr, DecidableEq

/-- The observable outcome of `analyze`: the process exit code and the two
sorted finding lists (printing is not modelled; `quiet` only affects
formatting and is omitted). -/
structure AnalyzeResult where
  exitCode : Nat
  unused_funcs : List (String × FunctionInfo)
  unused_imports : List (String × ImportInfo)
deriving Repr, DecidableEq

/-- The `analyze` command.  Reading and parsing the file are the
collaborator boundary: a failure of either is the `Except.error` case and
exits with status 1 (`raise typer.Exit(1)`).  On a successful parse the
visitor runs, the enabled finding lists are computed and sorted by line,
and the function returns normally: the process exit status is 0 regardless
of `has_issues`. -/
def analyze (input : Except AnalyzeErr NodeList) (no_imports no_functions : Bool) :
    AnalyzeResult :=
  match input with
  | .error _ => ⟨1, [], []⟩
  | .ok tree =>
      let v := runVisitor tree
      let uf := if no_functions then []
        else sortByLine (fun p => p.2.lineno) (get_unused_functions v)
      let ui := if no_imports then []
        else sortByLine (fun p => p.2.lineno) (get_unused_imports v)
      ⟨0, uf, ui⟩

/-- The number of findings `analyze` reports. -/
def AnalyzeResult.findings (r : AnalyzeResult) : Nat :=
  r.unused_funcs.length + r.unused_imports.length

/-- The outcome of a fuelled visit: a normal return carrying the visitor
state, or a raised exception (`err`) carrying the visitor state at the
moment of the raise — Python exceptions do not roll back mutations of
`self`. -/
inductive VRes where
  | ok : CodeVisitor → VRes
  | err : CodeVisitor → VRes
deriving Repr, DecidableEq

/-- The visitor state carried by a `VRes`, whether the visit returned or
raised. -/
def VRes.state : VRes → CodeVisitor
  | .ok s => s
  | .err s => s

mutual
/-- The same traversal as `visit`, with an explicit recursion budget
modelling the runtime's recursion limit: when the budget is exhausted the
visit raises (`RecursionError`), propagating the state at the raise point.
Every state update is identical to `visit`.  In particular `visit_ClassDef`
has no `try`/`finally`: when the descent into the class body raises, the
two restore assignments after `generic_visit` are skipped, exactly as in
the source. -/
def visitF : Nat → Node → CodeVisitor → VRes
  | 0, _, s => .err s
  | fuel + 1, nd, s =>
      match nd with
      | .imp names lineno => .ok (visit_Import names lineno s)
      | .impFrom module names lineno => .ok (visit_ImportFrom module names lineno s)
      | .name id _ => .ok { s with used_names := id :: s.used_names }
      | .funcDef nm args body decs lineno =>
          visitSeqF fuel [args, body, decs] (funcDefUpd nm decs lineno s)
      | .classDef nm body =>
          match visitListF fuel body { s with in_class := true, current_class := some nm } with
          | .ok s1 => .ok { s1 with in_class := s.in_class, current_class := s.current_class }
          | .err s1 => .err s1
      | .call f args =>
          match visitF fuel f (callTarget f s) with
          | .ok s2 => visitListF fuel args s2
          | .err s2 => .err s2
      | .attr v a =>
          visitF fuel v (attrBase v a s)
      | .other cs => visitListF fuel cs s

/-- Fuelled `generic_visit` over one list of children; the first raise
propagates. -/
def visitListF : Nat → NodeList → CodeVisitor → VRes
  | 0, _, s => .err s
  | _ + 1, .nil, s => .ok s
  | fuel + 1, .cons n l, s =>
      match visitF fuel n s with
      | .ok s1 => visitListF fuel l s1
      | .err s1 => .err s1

/-- Fuelled visit of several child lists in sequence (used for the `args`,
`body`, `decorator_list` groups of a function definition). -/
def visitSeqF : Nat → List NodeList → CodeVisitor → VRes
  | 0, _, s => .err s
  | _ + 1, [], s => .ok s
  | fuel + 1, l :: ls, s =>
      match visitListF fuel l s with
      | .ok s1 => visitSeqF fuel ls s1
      | .err s1 => .err s1
end

mutual
/-- A bare `ast.Name` node with identifier `n` occurs somewhere in the node
(in any expression context). -/
def nameOccurs (n : String) : Node → Bool
  | .imp _ _ => false
  | .impFrom _ _ _ => false
  | .name id _ => id == n
  | .funcDef _ args body decs _ =>
      nameOccursL n args || nameOccursL n body || nameOccursL n decs
  | .classDef _ body => nameOccursL n body
  | .call f args => nameOccurs n f || nameOccursL n args
  | .attr v _ => nameOccurs n v
  | .other cs => nameOccursL n cs

/-- `nameOccurs` over a node list. -/
def nameOccursL (n : String) : NodeList → Bool
  | .nil => false
  | .cons x l => nameOccurs n x || nameOccursL n l
end

mutual
/-- Modelled from the spec: the identifier `n` is "read somewhere in the
file as a bare-name reference or as the base of an attribute access" — a
`Name` occurrence in `Load` context, or the object of an attribute access
being the bare name `n`. -/
def readsName (n : String) : Node → Bool
  | .imp _ _ => false
  | .impFrom _ _ _ => false
  | .name id c => id == n && (c == NameCtx.load)
  | .funcDef _ args body decs _ =>
      readsNameL n args || readsNameL n body || readsNameL n decs
  | .classDef _ body => readsNameL n body
  | .call f args => readsName n f || readsNameL n args
  | .attr v _ =>
      (match v with
        | .name id _ => id == n
        | _ => false) || readsName n v
  | .other cs => readsNameL n cs

/-- `readsName` over a node list. -/
def readsNameL (n : String) : NodeList → Bool
  | .nil => false
  | .cons x l => readsName n x || readsNameL n l
end

mutual
/-- There is a function definition named `n`, with an empty decorator list,
that is not nested (at any depth) inside a class definition.  Nesting
inside other function definitions is allowed.  This is the exact condition
under which `visit_FunctionDef` creates a `FunctionInfo` record when the
traversal starts outside a class. -/
def freeFunc (n : String) : Node → Bool
  | .imp _ _ => false
  | .impFrom _ _ _ => false
  | .name _ _ => false
  | .funcDef m args body decs _ =>
      (m == n && decs.isNil) || freeFuncL n args || freeFuncL n body || freeFuncL n decs
  | .classDef _ _ => false
  | .call f args => freeFunc n f || freeFuncL n args
  | .attr v _ => freeFunc n v
  | .other cs => freeFuncL n cs

/-- `freeFunc` over a node list. -/
def freeFuncL (n : String) : NodeList → Bool
  | .nil => false
  | .cons x l => freeFunc n x || freeFuncL n l
end

/-- The binding recorded by the last alias of a direct import statement
that binds the local name `n` (later aliases take precedence). -/
def lastDirectAlias (n : String) (names : List ImportAlias) (lineno : Nat) :
    Option ImportInfo :=
  names.foldr (fun a acc =>
    acc.orElse (fun _ =>
      if (a.asname.getD a.name) == n then some ⟨a.name, lineno, false⟩ else none)) none

/-- The binding recorded by the last non-wildcard alias of a from-import
statement that binds the local name `n` (later aliases take precedence). -/
def lastFromAlias (n : String) (module : Option String) (names : List ImportAlias)
    (lineno : Nat) : Option ImportInfo :=
  names.foldr (fun a acc =>
    let k := a.asname.getD a.name
    acc.orElse (fun _ =>
      if k ≠ "*" && k == n then some ⟨module.getD "", lineno, true⟩ else none)) none

mutual
/-- Modelled from the spec ("a later declaration of the same name silently
replaces an earlier one"): the `ImportInfo` of the last direct-import
binding of local name `n`, in traversal order. -/
def lastDirect (n : String) : Node → Option ImportInfo
  | .imp names lineno => lastDirectAlias n names lineno
  | .impFrom _ _ _ => none
  | .name _ _ => none
  | .funcDef _ args body decs _ =>
      (lastDirectL n decs).orElse (fun _ =>
        (lastDirectL n body).orElse (fun _ => lastDirectL n args))
  | .classDef _ body => lastDirectL n body
  | .call f args => (lastDirectL n args).orElse (fun _ => lastDirect n f)
  | .attr v _ => lastDirect n v
  | .other cs => lastDirectL n cs

/-- `lastDirect` over a node list (later elements take precedence). -/
def lastDirectL (n : String) : NodeList → Option ImportInfo
  | .nil => none
  | .cons x l => (lastDirectL n l).orElse (fun _ => lastDirect n x)
end

mutual
/-- Modelled from the spec: the `ImportInfo` of the last from-import binding
of local name `n`, in traversal order. -/
def lastFrom (n : String) : Node → Option ImportInfo
  | .imp _ _ => none
  | .impFrom module names lineno => lastFromAlias n module names lineno
  | .name _ _ => none
  | .funcDef _ args body decs _ =>
      (lastFromL n decs).orElse (fun _ =>
        (lastFromL n body).orElse (fun _ => lastFromL n args))
  | .classDef _ body => lastFromL n body
  | .call f args => (lastFromL n args).orElse (fun _ => lastFrom n f)
  | .attr v _ => lastFrom n v
  | .other cs => lastFromL n cs

/-- `lastFrom` over a node list (later elements take precedence). -/
def lastFromL (n : String) : NodeList → Option ImportInfo
  | .nil => none
  | .cons x l => (lastFromL n l).orElse (fun _ => lastFrom n x)
end

mutual
/-- Every identifier of every bare `Name` node in the tree is free of the
character `.` — the guarantee the real parser provides, since Python
identifiers cannot contain a dot. -/
def idsDotFree : Node → Bool
  | .imp _ _ => true
  | .impFrom _ _ _ => true
  | .name id _ => !(id.data.contains '.')
  | .funcDef _ args body decs _ =>
      idsDotFreeL args && idsDotFreeL body && idsDotFreeL decs
  | .classDef _ body => idsDotFreeL body
  | .call f args => idsDotFree f && idsDotFreeL args
  | .attr v _ => idsDotFree v
  | .other cs => idsDotFreeL cs

/-- `idsDotFree` over a node list. -/
def idsDotFreeL : NodeList → Bool
  | .nil => true
  | .cons x l => idsDotFree x && idsDotFreeL l
end

/-- The underlying `List` of a `NodeList`. -/
def NodeList.toList : NodeList → List Node
  | .nil => []
  | .cons x l => x :: l.toList

/-! ### Association-list and sorting facts -/

/-- Lookup on a cons cell. -/
theorem lookupA_cons {α : Type} (p : String × α) (m : List (String × α)) (j : String) :
    lookupA (p :: m) j = if p.1 = j then some p.2 else lookupA m j := by
  unfold lookupA
  by_cases h : p.1 = j
  · rw [List.find?_cons_of_pos _ (by simp [h]), if_pos h]
    rfl
  · rw [List.find?_cons_of_neg _ (by simp [h]), if_neg h]

/-- Key-membership on a cons cell. -/
theorem keyMem_cons {α : Type} (p : String × α) (m : List (String × α)) (j : String) :
    keyMem (p :: m) j = ((p.1 == j) || keyMem m j) := by
  simp [keyMem]

/-- `updA` on a cons cell whose head carries the key. -/
theorem updA_cons_pos {α : Type} (p : String × α) (m : List (String × α)) (k : String)
    (v : α) (h : p.1 = k) : updA (p :: m) k v = (k, v) :: m := by
  simp [updA, h]

/-- `updA` on a cons cell whose head carries another key. -/
theorem updA_cons_neg {α : Type} (p : String × α) (m : List (String × α)) (k : String)
    (v : α) (h : p.1 ≠ k) : updA (p :: m) k v = p :: updA m k v := by
  simp [updA, h]

/-- Key-membership in `updA m k v`: the keys of `m` plus `k`. -/
theorem keyMem_updA {α : Type} (m : List (String × α)) (k : String) (v : α) (j : String) :
    keyMem (updA m k v) j = (keyMem m j || (k == j)) := by
  induction m with
  | nil => simp [updA, keyMem]
  | cons p m ih =>
      by_cases h : p.1 = k
      · rw [updA_cons_pos p m k v h, keyMem_cons, keyMem_cons, h]
        cases hkj : (k == j) <;> cases hm : keyMem m j <;> simp [hkj, hm]
      · rw [updA_cons_neg p m k v h, keyMem_cons, keyMem_cons, ih]
        cases hpj : (p.1 == j) <;> cases hm : keyMem m j <;> cases hkj : (k == j) <;> simp [hkj, hm]

/-- Lookup in `updA m k v`: the new value at `k`, unchanged elsewhere. -/
theorem lookupA_updA {α : Type} (m : List (String × α)) (k : String) (v : α) (j : String) :
    lookupA (updA m k v) j = if k = j then some v else lookupA m j := by
  induction m with
  | nil =>
      by_cases hkj : k = j
      · simp [updA, lookupA_cons, hkj]
      · simp [updA, lookupA_cons, hkj, lookupA]
  | cons p m ih =>
      by_cases h : p.1 = k
      · rw [updA_cons_pos p m k v h, lookupA_cons, lookupA_cons, h]
        by_cases hkj : k = j
        · simp [hkj]
        · simp [hkj]
      · rw [updA_cons_neg p m k v h, lookupA_cons, lookupA_cons, ih]
        by_cases hpj : p.1 = j
        · have hkj : ¬ k = j := fun e => h (hpj.trans e.symm)
          simp [hpj, hkj]
        · simp [hpj]

/-- Key-membership as an existential over entries. -/
theorem keyMem_iff_exists {α : Type} (m : List (String × α)) (n : String) :
    keyMem m n = true ↔ ∃ q ∈ m, q.1 = n := by
  simp [keyMem, List.any_eq_true]

/-- A key that is not present looks up to `none`. -/
theorem lookupA_eq_none_of_not_keyMem {α : Type} (m : List (String × α)) (n : String)
    (h : keyMem m n = false) : lookupA m n = none := by
  induction m with
  | nil => simp [lookupA]
  | cons p m ih =>
      rw [keyMem_cons] at h
      rcases Bool.or_eq_false_iff.mp h with ⟨h1, h2⟩
      rw [lookupA_cons, if_neg (by simpa using h1)]
      exact ih h2

/-- `keyMem` is definedness of `lookupA`. -/
theorem keyMem_eq_isSome_lookupA {α : Type} (m : List (String × α)) (n : String) :
    keyMem m n = (lookupA m n).isSome := by
  induction m with
  | nil => simp [keyMem, lookupA]
  | cons p m ih =>
      rw [keyMem_cons, lookupA_cons]
      by_cases h : p.1 = n
      · simp [h]
      · simp [h, ih, beq_eq_false_iff_ne.mpr h]

/-- Entries of `updA m k v` either carry key `k` or come from `m`. -/
theorem mem_updA_key {α : Type} (m : List (String × α)) (k : String) (v : α)
    (q : String × α) (hq : q ∈ updA m k v) : q.1 = k ∨ q ∈ m := by
  induction m with
  | nil =>
      simp [updA] at hq
      simp [hq]
  | cons p m ih =>
      by_cases h : p.1 = k
      · rw [updA_cons_pos p m k v h] at hq
        rcases List.mem_cons.mp hq with rfl | hm
        · exact Or.inl rfl
        · exact Or.inr (List.mem_cons_of_mem _ hm)
      · rw [updA_cons_neg p m k v h] at hq
        rcases List.mem_cons.mp hq with rfl | hm
        · exact Or.inr (List.mem_cons_self _ _)
        · rcases ih hm with h1 | h2
          · exact Or.inl h1
          · exact Or.inr (List.mem_cons_of_mem _ h2)

/-- Key-uniqueness of an association list (an invariant of every dict the
analyzer builds). -/
def UniqKeys {α : Type} (m : List (String × α)) : Prop :=
  m.Pairwise (fun p q => p.1 ≠ q.1)

/-- `updA` preserves key-uniqueness. -/
theorem uniqKeys_updA {α : Type} (m : List (String × α)) (k : String) (v : α)
    (h : UniqKeys m) : UniqKeys (updA m k v) := by
  induction m with
  | nil => simp [updA, UniqKeys]
  | cons p m ih =>
      rcases List.pairwise_cons.mp h with ⟨hp, hm⟩
      by_cases hk : p.1 = k
      · rw [updA_cons_pos p m k v hk]
        refine List.pairwise_cons.mpr ⟨?_, hm⟩
        intro q hq
        simpa using (hk ▸ hp q hq)
      · rw [updA_cons_neg p m k v hk]
        refine List.pairwise_cons.mpr ⟨?_, ih hm⟩
        intro q hq
        rcases mem_updA_key m k v q hq with h1 | h2
        · rw [h1]; exact hk
        · exact hp q h2

/-- An `updA` fold (as performed by the import visitors) keeps
key-uniqueness. -/
theorem uniqKeys_foldl_updA {α β : Type} (f : β → String) (g : β → α) (l : List β)
    (m : List (String × α)) (h : UniqKeys m) :
    UniqKeys (l.foldl (fun acc a => updA acc (f a) (g a)) m) := by
  induction l generalizing m with
  | nil => exact h
  | cons a l ih => exact ih _ (uniqKeys_updA _ _ _ h)

/-- Key-membership through the filtered `updA` fold used by both
`get_unused_imports` and `get_unused_functions`: a key is present afterwards
iff it was already present, or it occurs in the scanned list and is not
filtered out. -/
theorem keyMem_filterFold {α : Type} (C : String → Prop) [DecidablePred C]
    (l : List (String × α)) (u0 : List (String × α)) (n : String) :
    keyMem (l.foldl (fun u p => if C p.1 then u else updA u p.1 p.2) u0) n = true ↔
      keyMem u0 n = true ∨ (keyMem l n = true ∧ ¬ C n) := by
  induction l generalizing u0 with
  | nil => simp [keyMem]
  | cons p l ih =>
      simp only [List.foldl_cons]
      by_cases hC : C p.1
      · rw [if_pos hC, ih]
        by_cases hn : p.1 = n
        · constructor
          · rintro (h | ⟨h1, h2⟩)
            · exact Or.inl h
            · exact Or.inr ⟨by rw [keyMem_cons, h1]; simp, h2⟩
          · rintro (h | ⟨h1, h2⟩)
            · exact Or.inl h
            · exact absurd (hn ▸ hC) h2
        · rw [keyMem_cons, beq_eq_false_iff_ne.mpr hn]
          simp
      · rw [if_neg hC, ih, keyMem_updA, keyMem_cons]
        by_cases hn : p.1 = n
        · subst hn
          simp [hC]
        · rw [beq_eq_false_iff_ne.mpr hn]
          simp

/-- Lookup through the filtered `updA` fold, for a key-unique scanned list:
a filtered key leaves the accumulator's entry; otherwise the scanned list's
entry takes precedence over the accumulator's. -/
theorem lookupA_filterFold {α : Type} (C : String → Prop) [DecidablePred C]
    (l : List (String × α)) (u0 : List (String × α)) (n : String) (hu : UniqKeys l) :
    lookupA (l.foldl (fun u p => if C p.1 then u else updA u p.1 p.2) u0) n =
      if C n then lookupA u0 n
      else (lookupA l n).orElse (fun _ => lookupA u0 n) := by
  induction l generalizing u0 with
  | nil =>
      simp only [List.foldl_nil]
      split <;> simp [lookupA, Option.orElse]
  | cons p l ih =>
      rcases List.pairwise_cons.mp hu with ⟨hp, hl⟩
      simp only [List.foldl_cons]
      by_cases hC : C p.1
      · rw [if_pos hC, ih _ hl]
        by_cases hn : C n
        · rw [if_pos hn, if_pos hn]
        · have hpn : ¬ p.1 = n := fun e => hn (e ▸ hC)
          rw [if_neg hn, if_neg hn, lookupA_cons, if_neg hpn]
      · rw [if_neg hC, ih _ hl]
        by_cases hn : C n
        · have hpn : ¬ p.1 = n := fun e => hC (e ▸ hn)
          rw [if_pos hn, if_pos hn, lookupA_updA, if_neg hpn]
        · rw [if_neg hn, if_neg hn, lookupA_updA, lookupA_cons]
          by_cases hpn : p.1 = n
          · subst hpn
            have hnone : lookupA l p.1 = none := by
              apply lookupA_eq_none_of_not_keyMem
              by_contra hmem
              rcases (keyMem_iff_exists l p.1).mp (by simpa using hmem) with ⟨q, hq, hq1⟩
              exact hp q hq hq1.symm
            simp [hnone, Option.orElse]
          · simp [if_neg hpn]

/-- Elements of `insertStable` are the inserted element plus the old ones. -/
theorem mem_insertStable {α : Type} (line : α → Nat) (x : α) (l : List α) (a : α) :
    a ∈ insertStable line x l ↔ a = x ∨ a ∈ l := by
  induction l with
  | nil => simp [insertStable]
  | cons y ys ih =>
      by_cases h : line y ≤ line x
      · simp only [insertStable, if_pos h, List.mem_cons, ih]
        tauto
      · simp [insertStable, if_neg h]

/-- `insertStable` preserves sortedness by line. -/
theorem pairwise_insertStable {α : Type} (line : α → Nat) (x : α) (l : List α)
    (hl : l.Pairwise (fun a b => line a ≤ line b)) :
    (insertStable line x l).Pairwise (fun a b => line a ≤ line b) := by
  induction l with
  | nil => simp [insertStable]
  | cons y ys ih =>
      rcases List.pairwise_cons.mp hl with ⟨hy, hys⟩
      by_cases h : line y ≤ line x
      · rw [insertStable, if_pos h]
        refine List.pairwise_cons.mpr ⟨?_, ih hys⟩
        intro a ha
        rcases (mem_insertStable line x ys a).mp ha with rfl | ha'
        · exact h
        · exact hy a ha'
      · rw [insertStable, if_neg h]
        refine List.pairwise_cons.mpr ⟨?_, hl⟩
        intro a ha
        rcases List.mem_cons.mp ha with rfl | ha'
        · omega
        · exact le_trans (by omega) (hy a ha')

/-- The output of `sortByLine` is sorted ascending by line. -/
theorem pairwise_sortByLine {α : Type} (line : α → Nat) (l : List α) :
    (sortByLine line l).Pairwise (fun a b => line a ≤ line b) := by
  suffices h : ∀ acc : List α, acc.Pairwise (fun a b => line a ≤ line b) →
      (l.foldl (fun acc x => insertStable line x acc) acc).Pairwise
        (fun a b => line a ≤ line b) from h [] (by simp)
  induction l with
  | nil => intro acc hacc; simpa using hacc
  | cons x xs ih =>
      intro acc hacc
      exact ih _ (pairwise_insertStable line x acc hacc)

/-! ### Frame facts about the pre-descent state updates -/

/-- `funcDefUpd` touches only `defined_funcs` and `decorated_funcs`. -/
theorem funcDefUpd_fields (nm : String) (decs : NodeList) (lineno : Nat) (s : CodeVisitor) :
    (funcDefUpd nm decs lineno s).imports = s.imports ∧
    (funcDefUpd nm decs lineno s).import_froms = s.import_froms ∧
    (funcDefUpd nm decs lineno s).used_names = s.used_names ∧
    (funcDefUpd nm decs lineno s).called_funcs = s.called_funcs ∧
    (funcDefUpd nm decs lineno s).in_class = s.in_class ∧
    (funcDefUpd nm decs lineno s).current_class = s.current_class := by
  unfold funcDefUpd
  split
  · exact ⟨rfl, rfl, rfl, rfl, rfl, rfl⟩
  · split <;> exact ⟨rfl, rfl, rfl, rfl, rfl, rfl⟩

/-- `callTarget` only extends `called_funcs`. -/
theorem callTarget_eq (f : Node) (s : CodeVisitor) :
    ∃ cf : List String, callTarget f s = { s with called_funcs := cf } := by
  cases f with
  | name id c => exact ⟨id :: s.called_funcs, rfl⟩
  | attr v a =>
      cases v with
      | name vid c =>
          by_cases h : vid = "self"
          · exact ⟨a :: s.called_funcs, by simp [callTarget, h]⟩
          · exact ⟨s.called_funcs, by simp [callTarget, h]⟩
      | imp names lineno => exact ⟨s.called_funcs, rfl⟩
      | impFrom mo names lineno => exact ⟨s.called_funcs, rfl⟩
      | funcDef nm args body decs lineno => exact ⟨s.called_funcs, rfl⟩
      | classDef nm body => exact ⟨s.called_funcs, rfl⟩
      | call g args2 => exact ⟨s.called_funcs, rfl⟩
      | attr v2 a2 => exact ⟨s.called_funcs, rfl⟩
      | other cs => exact ⟨s.called_funcs, rfl⟩
  | imp names lineno => exact ⟨s.called_funcs, rfl⟩
  | impFrom mo names lineno => exact ⟨s.called_funcs, rfl⟩
  | funcDef nm args body decs lineno => exact ⟨s.called_funcs, rfl⟩
  | classDef nm body => exact ⟨s.called_funcs, rfl⟩
  | call g args2 => exact ⟨s.called_funcs, rfl⟩
  | other cs => exact ⟨s.called_funcs, rfl⟩

/-- `attrBase` only extends `called_funcs`, and extends `used_names` with
the object's identifier exactly when the object is a bare name. -/
theorem attrBase_eq (v : Node) (a : String) (s : CodeVisitor) :
    (∃ cf : List String, attrBase v a s = { s with called_funcs := cf }) ∨
    (∃ vid : String, ∃ c : NameCtx, ∃ cf : List String, v = .name vid c ∧
      attrBase v a s = { s with called_funcs := cf, used_names := vid :: s.used_names }) := by
  cases v with
  | name vid c =>
      refine Or.inr ⟨vid, c, ?_⟩
      by_cases h : vid = "self"
      · exact ⟨a :: s.called_funcs, rfl, by simp [attrBase, h]⟩
      · exact ⟨s.called_funcs, rfl, by simp [attrBase, h]⟩
  | imp names lineno => exact Or.inl ⟨s.called_funcs, rfl⟩
  | impFrom mo names lineno => exact Or.inl ⟨s.called_funcs, rfl⟩
  | funcDef nm args body decs lineno => exact Or.inl ⟨s.called_funcs, rfl⟩
  | classDef nm body => exact Or.inl ⟨s.called_funcs, rfl⟩
  | call g args2 => exact Or.inl ⟨s.called_funcs, rfl⟩
  | attr v2 a2 => exact Or.inl ⟨s.called_funcs, rfl⟩
  | other cs => exact Or.inl ⟨s.called_funcs, rfl⟩

/-! ### The traversal preserves the class context -/

mutual
/-- After a complete visit of any node, `in_class` and `current_class`
equal their values from before the visit. -/
theorem visit_ctx : ∀ (nd : Node) (s : CodeVisitor),
    (visit nd s).in_class = s.in_class ∧ (visit nd s).current_class = s.current_class
  | .imp names lineno, s => by simp [visit, visit_Import]
  | .impFrom mo names lineno, s => by simp [visit, visit_ImportFrom]
  | .name id c, s => by simp [visit]
  | .funcDef nm args body decs lineno, s => by
      simp only [visit]
      obtain ⟨-, -, -, -, h5, h6⟩ := funcDefUpd_fields nm decs lineno s
      obtain ⟨a1, a2⟩ := visitList_ctx args (funcDefUpd nm decs lineno s)
      obtain ⟨b1, b2⟩ := visitList_ctx body (visitList args (funcDefUpd nm decs lineno s))
      obtain ⟨d1, d2⟩ :=
        visitList_ctx decs (visitList body (visitList args (funcDefUpd nm decs lineno s)))
      exact ⟨by rw [d1, b1, a1, h5], by rw [d2, b2, a2, h6]⟩
  | .classDef nm body, s => by simp [visit]
  | .call f args, s => by
      simp only [visit]
      obtain ⟨cf, hcf⟩ := callTarget_eq f s
      obtain ⟨f1, f2⟩ := visit_ctx f (callTarget f s)
      obtain ⟨l1, l2⟩ := visitList_ctx args (visit f (callTarget f s))
      exact ⟨by rw [l1, f1, hcf], by rw [l2, f2, hcf]⟩
  | .attr v a, s => by
      simp only [visit]
      obtain ⟨v1, v2⟩ := visit_ctx v (attrBase v a s)
      rcases attrBase_eq v a s with ⟨cf, hcf⟩ | ⟨vid, c, cf, hv, hcf⟩ <;>
        exact ⟨by rw [v1, hcf], by rw [v2, hcf]⟩
  | .other cs, s => by
      simp only [visit]
      exact visitList_ctx cs s

/-- `visit_ctx` over a node list. -/
theorem visitList_ctx : ∀ (l : NodeList) (s : CodeVisitor),
    (visitList l s).in_class = s.in_class ∧ (visitList l s).current_class = s.current_class
  | .nil, s => by simp [visitList]
  | .cons n l, s => by
      simp only [visitList]
      obtain ⟨n1, n2⟩ := visit_ctx n s
      obtain ⟨l1, l2⟩ := visitList_ctx l (visit n s)
      exact ⟨by rw [l1, n1], by rw [l2, n2]⟩
end

/-- Fields `visit_Import` does not touch. -/
theorem visit_Import_pres (names : List ImportAlias) (lineno : Nat) (s : CodeVisitor) :
    (visit_Import names lineno s).defined_funcs = s.defined_funcs ∧
    (visit_Import names lineno s).decorated_funcs = s.decorated_funcs ∧
    (visit_Import names lineno s).import_froms = s.import_froms ∧
    (visit_Import names lineno s).used_names = s.used_names ∧
    (visit_Import names lineno s).called_funcs = s.called_funcs :=
  ⟨rfl, rfl, rfl, rfl, rfl⟩

/-- Fields `visit_ImportFrom` does not touch. -/
theorem visit_ImportFrom_pres (mo : Option String) (names : List ImportAlias) (lineno : Nat)
    (s : CodeVisitor) :
    (visit_ImportFrom mo names lineno s).defined_funcs = s.defined_funcs ∧
    (visit_ImportFrom mo names lineno s).decorated_funcs = s.decorated_funcs ∧
    (visit_ImportFrom mo names lineno s).imports = s.imports ∧
    (visit_ImportFrom mo names lineno s).used_names = s.used_names ∧
    (visit_ImportFrom mo names lineno s).called_funcs = s.called_funcs :=
  ⟨rfl, rfl, rfl, rfl, rfl⟩

/-- Fields `callTarget` does not touch. -/
theorem callTarget_pres (f : Node) (s : CodeVisitor) :
    (callTarget f s).defined_funcs = s.defined_funcs ∧
    (callTarget f s).decorated_funcs = s.decorated_funcs ∧
    (callTarget f s).imports = s.imports ∧
    (callTarget f s).import_froms = s.import_froms ∧
    (callTarget f s).used_names = s.used_names := by
  obtain ⟨cf, h⟩ := callTarget_eq f s
  rw [h]
  exact ⟨rfl, rfl, rfl, rfl, rfl⟩

/-- Fields `attrBase` does not touch. -/
theorem attrBase_pres (v : Node) (a : String) (s : CodeVisitor) :
    (attrBase v a s).defined_funcs = s.defined_funcs ∧
    (attrBase v a s).decorated_funcs = s.decorated_funcs ∧
    (attrBase v a s).imports = s.imports ∧
    (attrBase v a s).import_froms = s.import_froms := by
  rcases attrBase_eq v a s with ⟨cf, h⟩ | ⟨vid, c, cf, hv, h⟩ <;>
    (rw [h]; exact ⟨rfl, rfl, rfl, rfl⟩)

/-! ### Characterization of `used_names`: exactly the identifiers of the
tree's bare `Name` nodes (`visit_Name` fires on every one, in any context;
the base identifier added by `visit_Attribute` is itself a `Name` child). -/

mutual
/-- After visiting a node, `used_names` holds exactly the identifiers that
occur as a bare `Name` in the node, plus whatever was there before. -/
theorem visit_used : ∀ (nd : Node) (s : CodeVisitor) (n : String),
    n ∈ (visit nd s).used_names ↔ nameOccurs n nd = true ∨ n ∈ s.used_names
  | .imp names lineno, s, n => by
      simp [visit, visit_Import, nameOccurs]
  | .impFrom mo names lineno, s, n => by
      simp [visit, visit_ImportFrom, nameOccurs]
  | .name id c, s, n => by
      simp only [visit, nameOccurs, List.mem_cons, beq_iff_eq]
      constructor
      · rintro (h | h)
        · exact Or.inl h.symm
        · exact Or.inr h
      · rintro (h | h)
        · exact Or.inl h.symm
        · exact Or.inr h
  | .funcDef nm args body decs lineno, s, n => by
      simp only [visit, nameOccurs]
      obtain ⟨-, -, h3, -, -, -⟩ := funcDefUpd_fields nm decs lineno s
      rw [visitList_used decs _ n, visitList_used body _ n, visitList_used args _ n, h3]
      simp only [Bool.or_eq_true]
      tauto
  | .classDef nm body, s, n => by
      simp only [visit, nameOccurs]
      rw [visitList_used body _ n]
  | .call f args, s, n => by
      simp only [visit, nameOccurs]
      obtain ⟨-, -, -, -, h5⟩ := callTarget_pres f s
      rw [visitList_used args _ n, visit_used f _ n, h5]
      simp only [Bool.or_eq_true]
      tauto
  | .attr v a, s, n => by
      simp only [visit, nameOccurs]
      rw [visit_used v _ n]
      rcases attrBase_eq v a s with ⟨cf, hcf⟩ | ⟨vid, c, cf, hv, hcf⟩
      · rw [hcf]
      · subst hv
        rw [hcf]
        simp only [nameOccurs, List.mem_cons, beq_iff_eq]
        constructor
        · rintro (h | h | h)
          · exact Or.inl h
          · exact Or.inl h.symm
          · exact Or.inr h
        · rintro (h | h)
          · exact Or.inl h
          · exact Or.inr (Or.inr h)
  | .other cs, s, n => by
      simp only [visit, nameOccurs]
      exact visitList_used cs s n

/-- `visit_used` over a node list. -/
theorem visitList_used : ∀ (l : NodeList) (s : CodeVisitor) (n : String),
    n ∈ (visitList l s).used_names ↔ nameOccursL n l = true ∨ n ∈ s.used_names
  | .nil, s, n => by simp [visitList, nameOccursL]
  | .cons x l, s, n => by
      simp only [visitList, nameOccursL]
      rw [visitList_used l _ n, visit_used x s n]
      simp only [Bool.or_eq_true]
      tauto
end

/-! ### `defined_funcs`: class bodies contribute nothing, and outside a
class exactly the undecorated, non-class-nested definitions are recorded. -/

/-- What `funcDefUpd` does to the keys of `defined_funcs`. -/
theorem keyMem_funcDefUpd (nm : String) (decs : NodeList) (lineno : Nat) (s : CodeVisitor)
    (n : String) :
    keyMem (funcDefUpd nm decs lineno s).defined_funcs n = true ↔
      (s.in_class = false ∧ nm = n ∧ decs.isNil = true) ∨
        keyMem s.defined_funcs n = true := by
  cases hin : s.in_class with
  | true => simp [funcDefUpd, hin]
  | false =>
      by_cases hd : decs.isNil = true
      · simp only [funcDefUpd, hin, Bool.false_eq_true, if_false, hd, if_true]
        rw [keyMem_updA]
        simp [Bool.or_eq_true, beq_iff_eq, hd]
        tauto
      · simp only [funcDefUpd, hin, Bool.false_eq_true, if_false, if_neg hd]
        simp [hd]

mutual
/-- While inside a class body, no visit changes `defined_funcs`. -/
theorem visit_defined_inclass : ∀ (nd : Node) (s : CodeVisitor),
    s.in_class = true → (visit nd s).defined_funcs = s.defined_funcs
  | .imp names lineno, s, _ => (visit_Import_pres names lineno s).1
  | .impFrom mo names lineno, s, _ => (visit_ImportFrom_pres mo names lineno s).1
  | .name id c, s, _ => rfl
  | .funcDef nm args body decs lineno, s, h => by
      simp only [visit]
      have h0 : funcDefUpd nm decs lineno s = s := by simp [funcDefUpd, h]
      rw [h0]
      have hca : (visitList args s).in_class = true := by rw [(visitList_ctx args s).1, h]
      have hcb : (visitList body (visitList args s)).in_class = true := by
        rw [(visitList_ctx body (visitList args s)).1, hca]
      rw [visitList_defined_inclass decs _ hcb, visitList_defined_inclass body _ hca,
        visitList_defined_inclass args s h]
  | .classDef nm body, s, _ => by
      simp only [visit]
      exact visitList_defined_inclass body { s with in_class := true, current_class := some nm }
        rfl
  | .call f args, s, h => by
      simp only [visit]
      obtain ⟨cf, hcf⟩ := callTarget_eq f s
      have h1 : (callTarget f s).in_class = true := by rw [hcf]; exact h
      have h2 : (visit f (callTarget f s)).in_class = true := by
        rw [(visit_ctx f (callTarget f s)).1, h1]
      rw [visitList_defined_inclass args _ h2, visit_defined_inclass f _ h1, hcf]
  | .attr v a, s, h => by
      simp only [visit]
      have h1 : (attrBase v a s).in_class = true := by
        rcases attrBase_eq v a s with ⟨cf, hc⟩ | ⟨vid, c, cf, hv, hc⟩ <;> (rw [hc]; exact h)
      rw [visit_defined_inclass v _ h1, (attrBase_pres v a s).1]
  | .other cs, s, h => by
      simp only [visit]
      exact visitList_defined_inclass cs s h

/-- `visit_defined_inclass` over a node list. -/
theorem visitList_defined_inclass : ∀ (l : NodeList) (s : CodeVisitor),
    s.in_class = true → (visitList l s).defined_funcs = s.defined_funcs
  | .nil, _, _ => rfl
  | .cons x l, s, h => by
      simp only [visitList]
      have h1 : (visit x s).in_class = true := by rw [(visit_ctx x s).1, h]
      rw [visitList_defined_inclass l _ h1, visit_defined_inclass x s h]
end

mutual
/-- The keys of `defined_funcs` after a visit: the previous keys plus — when
the visit starts outside a class — the undecorated function definitions not
nested in any class definition. -/
theorem visit_defined_key : ∀ (nd : Node) (s : CodeVisitor) (n : String),
    keyMem (visit nd s).defined_funcs n = true ↔
      (s.in_class = false ∧ freeFunc n nd = true) ∨ keyMem s.defined_funcs n = true
  | .imp names lineno, s, n => by
      simp only [visit, freeFunc]
      rw [(visit_Import_pres names lineno s).1]
      simp
  | .impFrom mo names lineno, s, n => by
      simp only [visit, freeFunc]
      rw [(visit_ImportFrom_pres mo names lineno s).1]
      simp
  | .name id c, s, n => by
      simp [visit, freeFunc]
  | .funcDef nm args body decs lineno, s, n => by
      simp only [visit]
      obtain ⟨-, -, -, -, h5, -⟩ := funcDefUpd_fields nm decs lineno s
      have hca : (visitList args (funcDefUpd nm decs lineno s)).in_class = s.in_class := by
        rw [(visitList_ctx args _).1, h5]
      have hcb : (visitList body (visitList args (funcDefUpd nm decs lineno s))).in_class
          = s.in_class := by
        rw [(visitList_ctx body _).1, hca]
      rw [visit_defined_keyL decs _ n, visit_defined_keyL body _ n, visit_defined_keyL args _ n,
        keyMem_funcDefUpd, hcb, hca, h5]
      cases hin : s.in_class <;>
        simp [freeFunc, Bool.or_eq_true, Bool.and_eq_true, beq_iff_eq] <;> tauto
  | .classDef nm body, s, n => by
      simp only [visit]
      have h0 : (visitList body { s with in_class := true, current_class := some nm
        }).defined_funcs = s.defined_funcs := by
        exact visitList_defined_inclass body _ rfl
      rw [h0]
      simp [freeFunc]
  | .call f args, s, n => by
      simp only [visit]
      obtain ⟨cf, hcf⟩ := callTarget_eq f s
      have h1 : (callTarget f s).in_class = s.in_class := by rw [hcf]
      have h2 : (visit f (callTarget f s)).in_class = s.in_class := by
        rw [(visit_ctx f _).1, h1]
      rw [visit_defined_keyL args _ n, visit_defined_key f _ n, h2, h1,
        (callTarget_pres f s).1]
      simp only [freeFunc, Bool.or_eq_true]
      tauto
  | .attr v a, s, n => by
      simp only [visit]
      have h1 : (attrBase v a s).in_class = s.in_class := by
        rcases attrBase_eq v a s with ⟨cf, hc⟩ | ⟨vid, c, cf, hv, hc⟩ <;> rw [hc]
      rw [visit_defined_key v _ n, h1, (attrBase_pres v a s).1]
      simp only [freeFunc]
  | .other cs, s, n => by
      simp only [visit, freeFunc]
      exact visit_defined_keyL cs s n

/-- `visit_defined_key` over a node list. -/
theorem visit_defined_keyL : ∀ (l : NodeList) (s : CodeVisitor) (n : String),
    keyMem (visitList l s).defined_funcs n = true ↔
      (s.in_class = false ∧ freeFuncL n l = true) ∨ keyMem s.defined_funcs n = true
  | .nil, s, n => by simp [visitList, freeFuncL]
  | .cons x l, s, n => by
      simp only [visitList]
      have h1 : (visit x s).in_class = s.in_class := (visit_ctx x s).1
      rw [visit_defined_keyL l _ n, visit_defined_key x s n, h1]
      simp only [freeFuncL, Bool.or_eq_true]
      tauto
end

/-! ### `decorated_funcs` only grows, and a top-level decorated definition
always enters it -/

/-- `funcDefUpd` keeps every existing member of `decorated_funcs`. -/
theorem funcDefUpd_decorated_mono (nm : String) (decs : NodeList) (lineno : Nat)
    (s : CodeVisitor) (n : String) (h : n ∈ s.decorated_funcs) :
    n ∈ (funcDefUpd nm decs lineno s).decorated_funcs := by
  unfold funcDefUpd
  split
  · exact h
  · split
    · exact h
    · exact List.mem_cons_of_mem _ h

mutual
/-- No visit ever removes a member of `decorated_funcs`. -/
theorem visit_decorated_mono : ∀ (nd : Node) (s : CodeVisitor) (n : String),
    n ∈ s.decorated_funcs → n ∈ (visit nd s).decorated_funcs
  | .imp names lineno, s, n, h => by
      simp only [visit]
      rw [(visit_Import_pres names lineno s).2.1]
      exact h
  | .impFrom mo names lineno, s, n, h => by
      simp only [visit]
      rw [(visit_ImportFrom_pres mo names lineno s).2.1]
      exact h
  | .name id c, s, n, h => h
  | .funcDef nm args body decs lineno, s, n, h => by
      simp only [visit]
      exact visitList_decorated_mono decs _ n (visitList_decorated_mono body _ n
        (visitList_decorated_mono args _ n (funcDefUpd_decorated_mono nm decs lineno s n h)))
  | .classDef nm body, s, n, h => by
      simp only [visit]
      exact visitList_decorated_mono body { s with in_class := true, current_class := some nm }
        n h
  | .call f args, s, n, h => by
      simp only [visit]
      refine visitList_decorated_mono args _ n (visit_decorated_mono f _ n ?_)
      obtain ⟨cf, hcf⟩ := callTarget_eq f s
      rw [hcf]
      exact h
  | .attr v a, s, n, h => by
      simp only [visit]
      refine visit_decorated_mono v _ n ?_
      rcases attrBase_eq v a s with ⟨cf, hc⟩ | ⟨vid, c, cf, hv, hc⟩ <;> (rw [hc]; exact h)
  | .other cs, s, n, h => by
      simp only [visit]
      exact visitList_decorated_mono cs s n h

/-- `visit_decorated_mono` over a node list. -/
theorem visitList_decorated_mono : ∀ (l : NodeList) (s : CodeVisitor) (n : String),
    n ∈ s.decorated_funcs → n ∈ (visitList l s).decorated_funcs
  | .nil, _, _, h => h
  | .cons x l, s, n, h => by
      simp only [visitList]
      exact visitList_decorated_mono l _ n (visit_decorated_mono x s n h)
end

/-- Visiting a statement list from outside a class puts the name of every
decorated function definition appearing directly in the list into
`decorated_funcs`. -/
theorem visitList_decorated_top : ∀ (l : NodeList) (s : CodeVisitor),
    s.in_class = false →
    ∀ (nm : String) (args body decs : NodeList) (lineno : Nat),
      (Node.funcDef nm args body decs lineno) ∈ l.toList → decs.isNil = false →
      nm ∈ (visitList l s).decorated_funcs
  | .nil, s, _, nm, args, body, decs, lineno, hmem, _ => by
      simp [NodeList.toList] at hmem
  | .cons x l, s, hin, nm, args, body, decs, lineno, hmem, hdec => by
      simp only [NodeList.toList, List.mem_cons] at hmem
      simp only [visitList]
      rcases hmem with rfl | hmem
      · refine visitList_decorated_mono l _ nm ?_
        simp only [visit]
        refine visitList_decorated_mono decs _ nm (visitList_decorated_mono body _ nm
          (visitList_decorated_mono args _ nm ?_))
        simp [funcDefUpd, hin, hdec]
      · have h1 : (visit x s).in_class = false := by rw [(visit_ctx x s).1, hin]
        exact visitList_decorated_top l (visit x s) h1 nm args body decs lineno hmem hdec

/-! ### The import maps hold exactly the last binding of each name -/

/-- Reassociation of `Option.orElse`. -/
theorem orElseA {α : Type} (x y : Option α) (z : Unit → Option α) :
    (x.orElse (fun _ => y)).orElse z = x.orElse (fun _ => y.orElse z) := by
  cases x <;> rfl

/-- A `some` fallback absorbs any later fallback. -/
theorem orElse_some_absorb {α : Type} (x : Option α) (g : α) (z : Unit → Option α) :
    (x.orElse (fun _ => some g)).orElse z = x.orElse (fun _ => some g) := by
  cases x <;> rfl

/-- Lookup through the alias fold of `visit_Import`. -/
theorem lookupA_importFold (names : List ImportAlias) (lineno : Nat)
    (m : List (String × ImportInfo)) (n : String) :
    lookupA (names.foldl
        (fun m a => updA m (a.asname.getD a.name) ⟨a.name, lineno, false⟩) m) n =
      (lastDirectAlias n names lineno).orElse (fun _ => lookupA m n) := by
  induction names generalizing m with
  | nil => rfl
  | cons a names ih =>
      simp only [List.foldl_cons, lastDirectAlias, List.foldr_cons] at *
      rw [ih, lookupA_updA, orElseA]
      by_cases hk : (a.asname.getD a.name) = n
      · simp [hk]
      · simp [hk, beq_eq_false_iff_ne.mpr hk, Option.orElse]

/-- Lookup through the alias fold of `visit_ImportFrom`. -/
theorem lookupA_importFromFold (mo : Option String) (names : List ImportAlias) (lineno : Nat)
    (m : List (String × ImportInfo)) (n : String) :
    lookupA (names.foldl
        (fun m a =>
          let k := a.asname.getD a.name
          if k = "*" then m else updA m k ⟨mo.getD "", lineno, true⟩) m) n =
      (lastFromAlias n mo names lineno).orElse (fun _ => lookupA m n) := by
  induction names generalizing m with
  | nil => rfl
  | cons a names ih =>
      rw [List.foldl_cons]
      by_cases hstar : (a.asname.getD a.name) = "*"
      · rw [if_pos hstar, ih]
        have hred : lastFromAlias n mo (a :: names) lineno = lastFromAlias n mo names lineno := by
          simp [lastFromAlias, hstar]
        rw [hred]
      · rw [if_neg hstar, ih, lookupA_updA]
        by_cases hk : (a.asname.getD a.name) = n
        · rw [if_pos hk]
          have hn : ¬ n = "*" := fun e => hstar (hk.trans e)
          have hred : lastFromAlias n mo (a :: names) lineno =
              (lastFromAlias n mo names lineno).orElse
                (fun _ => some ⟨mo.getD "", lineno, true⟩) := by
            simp [lastFromAlias, hstar, hk, hn]
          rw [hred, orElse_some_absorb]
        · rw [if_neg hk]
          have hred : lastFromAlias n mo (a :: names) lineno = lastFromAlias n mo names lineno := by
            simp [lastFromAlias, hk]
          rw [hred]

mutual
/-- After a visit, looking a name up in `imports` yields the last
direct-import binding of that name in the node (if any), else the earlier
entry: a later declaration of the same name silently replaces an earlier
one. -/
theorem visit_imports : ∀ (nd : Node) (s : CodeVisitor) (n : String),
    lookupA (visit nd s).imports n =
      (lastDirect n nd).orElse (fun _ => lookupA s.imports n)
  | .imp names lineno, s, n => by
      simp only [visit, visit_Import, lastDirect]
      exact lookupA_importFold names lineno s.imports n
  | .impFrom mo names lineno, s, n => by
      simp only [visit, lastDirect]
      rw [(visit_ImportFrom_pres mo names lineno s).2.2.1]
      rfl
  | .name id c, s, n => by
      simp only [visit, lastDirect]
      rfl
  | .funcDef nm args body decs lineno, s, n => by
      simp only [visit, lastDirect]
      rw [visit_importsL decs _ n, visit_importsL body _ n, visit_importsL args _ n,
        (funcDefUpd_fields nm decs lineno s).1]
      cases lastDirectL n decs <;> cases lastDirectL n body <;> cases lastDirectL n args <;> rfl
  | .classDef nm body, s, n => by
      simp only [visit, lastDirect]
      rw [visit_importsL body _ n]
  | .call f args, s, n => by
      simp only [visit, lastDirect]
      rw [visit_importsL args _ n, visit_imports f _ n, (callTarget_pres f s).2.2.1]
      cases lastDirectL n args <;> cases lastDirect n f <;> rfl
  | .attr v a, s, n => by
      simp only [visit, lastDirect]
      rw [visit_imports v _ n, (attrBase_pres v a s).2.2.1]
  | .other cs, s, n => by
      simp only [visit, lastDirect]
      exact visit_importsL cs s n

/-- `visit_imports` over a node list. -/
theorem visit_importsL : ∀ (l : NodeList) (s : CodeVisitor) (n : String),
    lookupA (visitList l s).imports n =
      (lastDirectL n l).orElse (fun _ => lookupA s.imports n)
  | .nil, s, n => by simp [visitList, lastDirectL, Option.orElse]
  | .cons x l, s, n => by
      simp only [visitList, lastDirectL]
      rw [visit_importsL l _ n, visit_imports x s n]
      cases lastDirectL n l <;> cases lastDirect n x <;> rfl
end

mutual
/-- After a visit, looking a name up in `import_froms` yields the last
from-import binding of that name in the node (if any), else the earlier
entry. -/
theorem visit_froms : ∀ (nd : Node) (s : CodeVisitor) (n : String),
    lookupA (visit nd s).import_froms n =
      (lastFrom n nd).orElse (fun _ => lookupA s.import_froms n)
  | .imp names lineno, s, n => by
      simp only [visit, lastFrom]
      rw [(visit_Import_pres names lineno s).2.2.1]
      rfl
  | .impFrom mo names lineno, s, n => by
      simp only [visit, visit_ImportFrom, lastFrom]
      exact lookupA_importFromFold mo names lineno s.import_froms n
  | .name id c, s, n => by
      simp only [visit, lastFrom]
      rfl
  | .funcDef nm args body decs lineno, s, n => by
      simp only [visit, lastFrom]
      rw [visit_fromsL decs _ n, visit_fromsL body _ n, visit_fromsL args _ n,
        (funcDefUpd_fields nm decs lineno s).2.1]
      cases lastFromL n decs <;> cases lastFromL n body <;> cases lastFromL n args <;> rfl
  | .classDef nm body, s, n => by
      simp only [visit, lastFrom]
      rw [visit_fromsL body _ n]
  | .call f args, s, n => by
      simp only [visit, lastFrom]
      rw [visit_fromsL args _ n, visit_froms f _ n, (callTarget_pres f s).2.2.2.1]
      cases lastFromL n args <;> cases lastFrom n f <;> rfl
  | .attr v a, s, n => by
      simp only [visit, lastFrom]
      rw [visit_froms v _ n, (attrBase_pres v a s).2.2.2]
  | .other cs, s, n => by
      simp only [visit, lastFrom]
      exact visit_fromsL cs s n

/-- `visit_froms` over a node list. -/
theorem visit_fromsL : ∀ (l : NodeList) (s : CodeVisitor) (n : String),
    lookupA (visitList l s).import_froms n =
      (lastFromL n l).orElse (fun _ => lookupA s.import_froms n)
  | .nil, s, n => by simp [visitList, lastFromL, Option.orElse]
  | .cons x l, s, n => by
      simp only [visitList, lastFromL]
      rw [visit_fromsL l _ n, visit_froms x s n]
      cases lastFromL n l <;> cases lastFrom n x <;> rfl
end

/-! ### Key-uniqueness of the two import maps -/

/-- The alias fold of `visit_ImportFrom` keeps key-uniqueness. -/
theorem uniqKeys_fromFold (mo : Option String) (lineno : Nat) (names : List ImportAlias)
    (m : List (String × ImportInfo)) (h : UniqKeys m) :
    UniqKeys (names.foldl
      (fun m a =>
        let k := a.asname.getD a.name
        if k = "*" then m else updA m k ⟨mo.getD "", lineno, true⟩) m) := by
  induction names generalizing m with
  | nil => exact h
  | cons a names ih =>
      rw [List.foldl_cons]
      by_cases hstar : (a.asname.getD a.name) = "*"
      · rw [if_pos hstar]
        exact ih _ h
      · rw [if_neg hstar]
        exact ih _ (uniqKeys_updA _ _ _ h)

mutual
/-- Visits keep both import maps key-unique. -/
theorem visit_uniq : ∀ (nd : Node) (s : CodeVisitor),
    (UniqKeys s.imports → UniqKeys (visit nd s).imports) ∧
    (UniqKeys s.import_froms → UniqKeys (visit nd s).import_froms)
  | .imp names lineno, s => by
      simp only [visit, visit_Import]
      exact ⟨fun h => uniqKeys_foldl_updA (fun a => a.asname.getD a.name)
        (fun a => ⟨a.name, lineno, false⟩) names s.imports h, fun h => h⟩
  | .impFrom mo names lineno, s => by
      simp only [visit, visit_ImportFrom]
      exact ⟨fun h => h, fun h => uniqKeys_fromFold mo lineno names s.import_froms h⟩
  | .name id c, s => ⟨fun h => h, fun h => h⟩
  | .funcDef nm args body decs lineno, s => by
      simp only [visit]
      obtain ⟨h1, h2, -, -, -, -⟩ := funcDefUpd_fields nm decs lineno s
      constructor
      · intro h
        exact (visit_uniqL decs _).1 ((visit_uniqL body _).1 ((visit_uniqL args _).1
          (by rw [h1]; exact h)))
      · intro h
        exact (visit_uniqL decs _).2 ((visit_uniqL body _).2 ((visit_uniqL args _).2
          (by rw [h2]; exact h)))
  | .classDef nm body, s => by
      simp only [visit]
      exact ⟨fun h => (visit_uniqL body _).1 h, fun h => (visit_uniqL body _).2 h⟩
  | .call f args, s => by
      simp only [visit]
      obtain ⟨-, -, h3, h4, -⟩ := callTarget_pres f s
      constructor
      · intro h
        exact (visit_uniqL args _).1 ((visit_uniq f _).1 (by rw [h3]; exact h))
      · intro h
        exact (visit_uniqL args _).2 ((visit_uniq f _).2 (by rw [h4]; exact h))
  | .attr v a, s => by
      simp only [visit]
      obtain ⟨-, -, h3, h4⟩ := attrBase_pres v a s
      constructor
      · intro h
        exact (visit_uniq v _).1 (by rw [h3]; exact h)
      · intro h
        exact (visit_uniq v _).2 (by rw [h4]; exact h)
  | .other cs, s => by
      simp only [visit]
      exact visit_uniqL cs s

/-- `visit_uniq` over a node list. -/
theorem visit_uniqL : ∀ (l : NodeList) (s : CodeVisitor),
    (UniqKeys s.imports → UniqKeys (visitList l s).imports) ∧
    (UniqKeys s.import_froms → UniqKeys (visitList l s).import_froms)
  | .nil, s => ⟨fun h => h, fun h => h⟩
  | .cons x l, s => by
      simp only [visitList]
      exact ⟨fun h => (visit_uniqL l _).1 ((visit_uniq x s).1 h),
        fun h => (visit_uniqL l _).2 ((visit_uniq x s).2 h)⟩
end

/-! ### Dot-free identifiers -/

mutual
/-- In a tree whose `Name` identifiers are dot-free, every identifier that
occurs as a bare name is dot-free. -/
theorem dotfree_occurs : ∀ (nd : Node) (n : String),
    idsDotFree nd = true → nameOccurs n nd = true → n.data.contains '.' = false
  | .imp names lineno, n, _, hocc => by simp [nameOccurs] at hocc
  | .impFrom mo names lineno, n, _, hocc => by simp [nameOccurs] at hocc
  | .name id c, n, hdf, hocc => by
      simp only [idsDotFree, Bool.not_eq_true'] at hdf
      simp only [nameOccurs, beq_iff_eq] at hocc
      rw [← hocc]
      exact hdf
  | .funcDef nm args body decs lineno, n, hdf, hocc => by
      simp only [idsDotFree, Bool.and_eq_true] at hdf
      simp only [nameOccurs, Bool.or_eq_true] at hocc
      rcases hocc with (h | h) | h
      · exact dotfree_occursL args n hdf.1.1 h
      · exact dotfree_occursL body n hdf.1.2 h
      · exact dotfree_occursL decs n hdf.2 h
  | .classDef nm body, n, hdf, hocc => by
      simp only [idsDotFree] at hdf
      simp only [nameOccurs] at hocc
      exact dotfree_occursL body n hdf hocc
  | .call f args, n, hdf, hocc => by
      simp only [idsDotFree, Bool.and_eq_true] at hdf
      simp only [nameOccurs, Bool.or_eq_true] at hocc
      rcases hocc with h | h
      · exact dotfree_occurs f n hdf.1 h
      · exact dotfree_occursL args n hdf.2 h
  | .attr v a, n, hdf, hocc => by
      simp only [idsDotFree] at hdf
      simp only [nameOccurs] at hocc
      exact dotfree_occurs v n hdf hocc
  | .other cs, n, hdf, hocc => by
      simp only [idsDotFree] at hdf
      simp only [nameOccurs] at hocc
      exact dotfree_occursL cs n hdf hocc

/-- `dotfree_occurs` over a node list. -/
theorem dotfree_occursL : ∀ (l : NodeList) (n : String),
    idsDotFreeL l = true → nameOccursL n l = true → n.data.contains '.' = false
  | .nil, n, _, hocc => by simp [nameOccursL] at hocc
  | .cons x l, n, hdf, hocc => by
      simp only [idsDotFreeL, Bool.and_eq_true] at hdf
      simp only [nameOccursL, Bool.or_eq_true] at hocc
      rcases hocc with h | h
      · exact dotfree_occurs x n hdf.1 h
      · exact dotfree_occursL l n hdf.2 h
end

/-! ### The two resolvers -/

/-- A name is a key of `get_unused_imports v` iff it is a key of one of the
two import maps and not in `used_names`. -/
theorem keyMem_get_unused_imports (v : CodeVisitor) (n : String) :
    keyMem (get_unused_imports v) n = true ↔
      (keyMem v.imports n = true ∨ keyMem v.import_froms n = true) ∧
        n ∉ v.used_names := by
  unfold get_unused_imports
  rw [keyMem_filterFold (fun k => k ∈ v.used_names),
    keyMem_filterFold (fun k => k ∈ v.used_names)]
  simp only [keyMem, List.any_nil]
  constructor
  · rintro ((h | ⟨h1, h2⟩) | ⟨h1, h2⟩)
    · cases h
    · exact ⟨Or.inl h1, h2⟩
    · exact ⟨Or.inr h1, h2⟩
  · rintro ⟨h1 | h1, h2⟩
    · exact Or.inl (Or.inr ⟨h1, h2⟩)
    · exact Or.inr ⟨h1, h2⟩

/-- A name is a key of `get_unused_functions v` iff it is a recorded
function that is neither called nor decorated. -/
theorem keyMem_get_unused_functions (v : CodeVisitor) (n : String) :
    keyMem (get_unused_functions v) n = true ↔
      keyMem v.defined_funcs n = true ∧
        ¬ (n ∈ v.called_funcs ∨ n ∈ v.decorated_funcs) := by
  unfold get_unused_functions
  rw [keyMem_filterFold (fun k => k ∈ v.called_funcs ∨ k ∈ v.decorated_funcs)]
  simp only [keyMem, List.any_nil]
  constructor
  · rintro (h | h)
    · cases h
    · exact h
  · exact fun h => Or.inr h

/-- For an unused name, the entry of `get_unused_imports` is the
from-import record when one exists, else the direct-import record. -/
theorem lookupA_get_unused_imports (v : CodeVisitor) (n : String)
    (h1 : UniqKeys v.imports) (h2 : UniqKeys v.import_froms) (hn : n ∉ v.used_names) :
    lookupA (get_unused_imports v) n =
      (lookupA v.import_froms n).orElse (fun _ => lookupA v.imports n) := by
  unfold get_unused_imports
  rw [lookupA_filterFold (fun k => k ∈ v.used_names) _ _ _ h2,
    lookupA_filterFold (fun k => k ∈ v.used_names) _ _ _ h1]
  rw [if_neg hn, if_neg hn]
  cases lookupA v.import_froms n <;> cases lookupA v.imports n <;> rfl

/-! ### `visit_ClassDef` restores the context whenever its descent
completes -/

/-- If a fuelled visit of a class definition returns normally, the class
context is restored to its value from before the visit. -/
theorem visitF_classDef_ok (nm : String) (body : NodeList) (s s' : CodeVisitor) (fuel : Nat)
    (h : visitF fuel (.classDef nm body) s = .ok s') :
    s'.in_class = s.in_class ∧ s'.current_class = s.current_class := by
  cases fuel with
  | zero => cases h
  | succ f =>
      simp only [visitF] at h
      cases hb : visitListF f body { s with in_class := true, current_class := some nm } with
      | ok s1 =>
          rw [hb] at h
          cases h
          exact ⟨rfl, rfl⟩
      | err s1 =>
          rw [hb] at h
          cases h

/-! ### Concrete analyzed files used as counterexamples and witnesses -/

/-- The parsed tree of the file `import os` — one statement, line 1; the
binding `os` is unused, and the file parses successfully. -/
def exImportOs : NodeList := .cons (.imp [⟨"os", none⟩] 1) .nil

/-- `from m import foo` (line 1) followed by `import foo` (line 2): the same
local name bound by two import declarations of different kinds on different
lines, with no use of `foo`. -/
def exCrossKind : NodeList :=
  .cons (.impFrom (some "m") [⟨"foo", none⟩] 1) (.cons (.imp [⟨"foo", none⟩] 2) .nil)

/-- `def outer():` (line 1) whose body holds the nested `def inner():`
(line 2); `inner` is not top-level. -/
def exNested : NodeList :=
  .cons (.funcDef "outer" .nil (.cons (.funcDef "inner" .nil .nil .nil 2) .nil) .nil 1) .nil

/-- `import os` (line 1) followed by the assignment `os = 1` (line 2): the
target is a `Name` node in `Store` context inside the `Assign` statement,
so `os` is written but never read. -/
def exStoreOnly : NodeList :=
  .cons (.imp [⟨"os", none⟩] 1) (.cons (.other (.cons (.name "os" .store) .nil)) .nil)

/-- `from m import b; import a` — two unused import declarations on line 1,
`b` declared before `a`. -/
def exTie : NodeList :=
  .cons (.impFrom (some "m") [⟨"b", none⟩] 1) (.cons (.imp [⟨"a", none⟩] 1) .nil)

/-- `@d` / `def f(): ...` — a top-level function carrying one decorator and
never called. -/
def exDecorated : NodeList :=
  .cons (.funcDef "f" .nil .nil (.cons (.name "d" .load) .nil) 1) .nil

/-- A class definition whose body is still unvisited when the recursion
budget runs out. -/
def exDeepClass : Node := .classDef "C" (.cons (.name "x" .load) .nil)

/-- `import a.b` (line 1) followed by the expression `a.b` — an attribute
access on the bare name `a`. -/
def exDotted : NodeList :=
  .cons (.imp [⟨"a.b", none⟩] 1)
    (.cons (.other (.cons (.attr (.name "a" .load) "b") .nil)) .nil)

/-! ### The claims -/

/-- C1, counterexample: the successfully parsed file `import os`, analyzed
with both checks enabled, yields one finding, yet the exit status is 0
(success) — the claim demands a non-success status whenever at least one
finding is reported. -/
theorem C1_counterexample :
    (analyze (.ok exImportOs) false false).findings = 1 ∧
      (analyze (.ok exImportOs) false false).exitCode = 0 :=
  ⟨rfl, rfl⟩

/-- C1, amended: the exit status is success exactly when reading and
parsing the file succeeded; findings do not affect the exit status (the
command returns normally after printing them), and any processing error
exits with status 1. -/
theorem C1_amended :
    (∀ (t : NodeList) (ni nf : Bool), (analyze (.ok t) ni nf).exitCode = 0) ∧
      (∀ (e : AnalyzeErr) (ni nf : Bool), (analyze (.error e) ni nf).exitCode = 1) :=
  ⟨fun _ _ _ => rfl, fun _ _ _ => rfl⟩

/-- C2, counterexample: in `from m import foo` (line 1) / `import foo`
(line 2) the later direct declaration does not replace the earlier
from-import — both records are kept, each in its own map — and the
unused-import result retains the EARLIER declaration's line 1, not the
later line 2 as the claim demands. -/
theorem C2_counterexample :
    lookupA (runVisitor exCrossKind).imports "foo" = some ⟨"foo", 2, false⟩ ∧
      lookupA (runVisitor exCrossKind).import_froms "foo" = some ⟨"m", 1, true⟩ ∧
      sortByLine (fun p => p.2.lineno) (get_unused_imports (runVisitor exCrossKind)) =
        [("foo", ⟨"m", 1, true⟩)] :=
  ⟨rfl, rfl, rfl⟩

/-- C2, amended: a later binding of a local name silently replaces an
earlier one only within the same kind of import: each of the two maps holds
exactly the last binding of the name of its kind.  When a direct import and
a from-import bind the same name, both records are kept, and for an unused
name the unused-import result retains the from-import record regardless of
declaration order. -/
theorem C2_amended (t : NodeList) (n : String) :
    lookupA (runVisitor t).imports n = lastDirectL n t ∧
    lookupA (runVisitor t).import_froms n = lastFromL n t ∧
    (n ∉ (runVisitor t).used_names →
      lookupA (get_unused_imports (runVisitor t)) n =
        (lastFromL n t).orElse (fun _ => lastDirectL n t)) := by
  have e1 : lookupA (runVisitor t).imports n = lastDirectL n t := by
    rw [runVisitor, visit_importsL]
    cases lastDirectL n t <;> rfl
  have e2 : lookupA (runVisitor t).import_froms n = lastFromL n t := by
    rw [runVisitor, visit_fromsL]
    cases lastFromL n t <;> rfl
  refine ⟨e1, e2, fun hn => ?_⟩
  have hu1 : UniqKeys (runVisitor t).imports :=
    (visit_uniqL t initVisitor).1 List.Pairwise.nil
  have hu2 : UniqKeys (runVisitor t).import_froms :=
    (visit_uniqL t initVisitor).2 List.Pairwise.nil
  rw [lookupA_get_unused_imports _ _ hu1 hu2 hn, e1, e2]

/-- C2, witness for the amended claim at the cross-kind file. -/
theorem C2_amended_witness :
    lookupA (get_unused_imports (runVisitor exCrossKind)) "foo" =
      (lastFromL "foo" exCrossKind).orElse (fun _ => lastDirectL "foo" exCrossKind) :=
  (C2_amended exCrossKind "foo").2.2 (by decide)

/-- C3, counterexample: `inner` is nested inside another function — hence
not top-level — yet it enters the record map (and is even reported
unused). -/
theorem C3_counterexample :
    keyMem (runVisitor exNested).defined_funcs "inner" = true ∧
      keyMem (get_unused_functions (runVisitor exNested)) "inner" = true :=
  ⟨rfl, rfl⟩

/-- C3, amended: a FunctionRecord is created for a name iff the file holds
an undecorated function definition of that name that is not nested (at any
depth) inside a class definition; nesting inside another function does not
prevent recording. -/
theorem C3_amended (t : NodeList) (n : String) :
    keyMem (runVisitor t).defined_funcs n = true ↔ freeFuncL n t = true := by
  rw [runVisitor, visit_defined_keyL]
  simp [initVisitor, keyMem]

/-- C4: an import is reported unused iff its bound local name is absent
from `used_names`, and any bare-name occurrence of the identifier anywhere
in the file removes it from the result. -/
theorem C4_unused_iff_not_used (t : NodeList) (n : String)
    (h : keyMem (runVisitor t).imports n = true ∨
      keyMem (runVisitor t).import_froms n = true) :
    (keyMem (get_unused_imports (runVisitor t)) n = true ↔
      n ∉ (runVisitor t).used_names) ∧
    (nameOccursL n t = true →
      keyMem (get_unused_imports (runVisitor t)) n = false) := by
  constructor
  · rw [keyMem_get_unused_imports]
    tauto
  · intro hocc
    have hu : n ∈ (runVisitor t).used_names :=
      (visitList_used t initVisitor n).mpr (Or.inl hocc)
    cases hk : keyMem (get_unused_imports (runVisitor t)) n
    · rfl
    · exact absurd hu ((keyMem_get_unused_imports _ n).mp hk).2

/-- C4, witness at the file `import os`. -/
theorem C4_witness :
    (keyMem (get_unused_imports (runVisitor exImportOs)) "os" = true ↔
      "os" ∉ (runVisitor exImportOs).used_names) ∧
    (nameOccursL "os" exImportOs = true →
      keyMem (get_unused_imports (runVisitor exImportOs)) "os" = false) :=
  C4_unused_iff_not_used exImportOs "os" (Or.inl rfl)

/-- C5, counterexample: in `import os` / `os = 1` the identifier `os` is
never read — it occurs only as an assignment target — yet it is in
`used_names` and the unused import `os` is suppressed, contradicting the
claimed characterization of UsedNames as read occurrences. -/
theorem C5_counterexample :
    "os" ∈ (runVisitor exStoreOnly).used_names ∧
      readsNameL "os" exStoreOnly = false ∧
      keyMem (get_unused_imports (runVisitor exStoreOnly)) "os" = false := by
  exact ⟨by decide, rfl, rfl⟩

/-- C5, amended: an identifier is in `used_names` exactly when it occurs as
a bare `Name` node anywhere in the file, in any expression context —
including write-only occurrences such as assignment targets, which
therefore do suppress unused-import reporting. -/
theorem C5_amended (t : NodeList) (n : String) :
    n ∈ (runVisitor t).used_names ↔ nameOccursL n t = true := by
  rw [runVisitor, visitList_used]
  simp [initVisitor]

/-- C6, counterexample: for `from m import b; import a` (both unused, both
declared on line 1, `b` first) the reported order is `a` then `b` — the
direct entries precede the from-import entries on equal lines — not the
original declaration order `b` then `a`. -/
theorem C6_counterexample :
    sortByLine (fun p => p.2.lineno) (get_unused_imports (runVisitor exTie)) =
      [("a", ⟨"a", 1, false⟩), ("b", ⟨"m", 1, true⟩)] :=
  rfl

/-- C6, amended: both result lists are sorted ascending by declaration
line; entries with equal lines appear in the iteration order of the
visitor's maps (all direct imports before all from-imports, and a rebound
name at its first map position), which can differ from the original
declaration order. -/
theorem C6_amended (t : NodeList) (ni nf : Bool) :
    ((analyze (.ok t) ni nf).unused_imports).Pairwise
      (fun a b => a.2.lineno ≤ b.2.lineno) ∧
    ((analyze (.ok t) ni nf).unused_funcs).Pairwise
      (fun a b => a.2.lineno ≤ b.2.lineno) := by
  constructor
  · cases ni
    · exact pairwise_sortByLine _ _
    · exact List.Pairwise.nil
  · cases nf
    · exact pairwise_sortByLine _ _
    · exact List.Pairwise.nil

/-- C7: a top-level function definition carrying at least one decorator is
never reported in the unused-function output, regardless of any call
evidence. -/
theorem C7_decorated_never_reported (t : NodeList) (nm : String)
    (args body decs : NodeList) (lineno : Nat)
    (hmem : (Node.funcDef nm args body decs lineno) ∈ t.toList)
    (hdec : decs.isNil = false) :
    keyMem (get_unused_functions (runVisitor t)) nm = false := by
  have hd : nm ∈ (runVisitor t).decorated_funcs :=
    visitList_decorated_top t initVisitor rfl nm args body decs lineno hmem hdec
  cases hk : keyMem (get_unused_functions (runVisitor t)) nm
  · rfl
  · exact absurd (Or.inr hd) ((keyMem_get_unused_functions _ nm).mp hk).2

/-- C7, witness: the decorated, never-called `f` is absent from the
results. -/
theorem C7_witness :
    keyMem (get_unused_functions (runVisitor exDecorated)) "f" = false :=
  C7_decorated_never_reported exDecorated "f" .nil .nil
    (.cons (.name "d" .load) .nil) 1 (by decide) rfl

/-- C8: visiting a class definition leaves the FunctionRecord map exactly
as it was — no function definition inside a class body (at any depth)
enters it — and every unused-function result entry comes from that map, so
no class-nested definition's record can appear in the output. -/
theorem C8_class_functions_never_recorded :
    (∀ (nm : String) (body : NodeList) (s : CodeVisitor),
      (visit (.classDef nm body) s).defined_funcs = s.defined_funcs) ∧
    (∀ (v : CodeVisitor) (n : String),
      keyMem (get_unused_functions v) n = true → keyMem v.defined_funcs n = true) := by
  constructor
  · intro nm body s
    simp only [visit]
    exact visitList_defined_inclass body _ rfl
  · intro v n hk
    exact ((keyMem_get_unused_functions v n).mp hk).1

/-- C8, witness: applying the second part at a state that reports
`outer`. -/
theorem C8_witness :
    keyMem (runVisitor exNested).defined_funcs "outer" = true :=
  C8_class_functions_never_recorded.2 (runVisitor exNested) "outer" (by decide)

/-- C9, counterexample: with recursion budget 1 the descent into the class
body raises mid-way; `visit_ClassDef` has no `try`/`finally`, so the error
propagates without restoring the context — after the failing visit,
`in_class` is `true` although it was `false` before, refuting restoration
on every exit path. -/
theorem C9_counterexample :
    initVisitor.in_class = false ∧
      (visitF 1 exDeepClass initVisitor).state.in_class = true ∧
      (∃ s1 : CodeVisitor, visitF 1 exDeepClass initVisitor = .err s1) :=
  ⟨rfl, rfl, ⟨_, rfl⟩⟩

/-- C9, amended: `visit_ClassDef` saves the prior context, sets the
inside-class flag with the class's name, descends the full body, and
restores the prior context whenever the descent completes; on a failing
descent the exception propagates and the context is not restored. -/
theorem C9_amended (nm : String) (body : NodeList) (s s' : CodeVisitor) (fuel : Nat)
    (h : visitF fuel (.classDef nm body) s = .ok s') :
    s'.in_class = s.in_class ∧ s'.current_class = s.current_class :=
  visitF_classDef_ok nm body s s' fuel h

/-- C9, witness: a completed class visit with enough budget restores the
context. -/
theorem C9_witness :
    ({ initVisitor with used_names := ["x"] } : CodeVisitor).in_class
        = initVisitor.in_class ∧
      ({ initVisitor with used_names := ["x"] } : CodeVisitor).current_class
        = initVisitor.current_class :=
  C9_amended "C" (.cons (.name "x" .load) .nil) initVisitor
    { initVisitor with used_names := ["x"] } 3 rfl

/-- C10: a direct import of a dotted module path without an alias is keyed
by the full dotted string; since every bare identifier in the tree is
dot-free (a parser guarantee), the key can never be in `used_names`, so such an
entry is always reported unused — even when the module is used through
attribute access on its first component. -/
theorem C10_dotted_always_unused (t : NodeList) (k : String)
    (hk : keyMem (runVisitor t).imports k = true)
    (hdot : k.data.contains '.' = true)
    (hdf : idsDotFreeL t = true) :
    keyMem (get_unused_imports (runVisitor t)) k = true := by
  have hnotused : k ∉ (runVisitor t).used_names := by
    intro hu
    have hocc : nameOccursL k t = true := by
      rcases (visitList_used t initVisitor k).mp hu with h | h
      · exact h
      · cases h
    have hfree : k.data.contains '.' = false := dotfree_occursL t k hdf hocc
    rw [hfree] at hdot
    cases hdot
  exact (keyMem_get_unused_imports _ k).mpr ⟨Or.inl hk, hnotused⟩

/-- C10, witness: `import a.b` with a use of `a.b` via attribute access is
still reported unused. -/
theorem C10_witness :
    keyMem (get_unused_imports (runVisitor exDotted)) "a.b" = true :=
  C10_dotted_always_unused exDotted "a.b" rfl (by decide) (by decide)
